import Mathlib

/-!
# vault-demo-server: the unseal command and the session token helper

A shallow embedding of

* `UnsealCommand.Run` / `UnsealCommand.Help`
  (`Godeps/_workspace/src/github.com/hashicorp/vault/command/unseal.go`), and
* `mainToken` (`token_helper.go`),

together with the parts of the Go standard library they call
(`fmt.Sprintf` for the verbs used, `strings.TrimSpace`, `flag.FlagSet.Parse`,
`filepath.Clean`, `filepath.Dir`).

Go strings are modelled by Lean strings, i.e. sequences of Unicode scalar
values (valid UTF-8).  Everything the two functions obtain from collaborators
whose code is not part of the two source files (`Meta.FlagSet`, `Meta.Client`,
`password.Read`, `client.Sys().Unseal`, `os.MkdirAll`, `disk.Command.Run`) is
a field of a world record, and every observable action is recorded in a trace.
-/

namespace Vault

/-! ## Go standard library: `unicode.IsSpace`, `strings.TrimSpace` -/

/-- Go `unicode.IsSpace`: the Latin-1 spaces `\t \n \v \f \r`, space, U+0085,
U+00A0, and the other code points with the White_Space property. -/
def isSpace (c : Char) : Bool :=
  c.toNat = 0x09 || c.toNat = 0x0A || c.toNat = 0x0B || c.toNat = 0x0C || c.toNat = 0x0D ||
  c.toNat = 0x20 || c.toNat = 0x85 || c.toNat = 0xA0 || c.toNat = 0x1680 ||
  (0x2000 ≤ c.toNat && c.toNat ≤ 0x200A) ||
  c.toNat = 0x2028 || c.toNat = 0x2029 || c.toNat = 0x202F || c.toNat = 0x205F ||
  c.toNat = 0x3000

/-- Go `strings.TrimLeftFunc(s, unicode.IsSpace)` on the runes of `s`. -/
def trimLeft (s : List Char) : List Char := s.dropWhile isSpace

/-- Go `strings.TrimRightFunc(s, unicode.IsSpace)` on the runes of `s`. -/
def trimRight (s : List Char) : List Char := s.rdropWhile isSpace

/-- Go `strings.TrimSpace`: `TrimRightFunc(TrimLeftFunc(s, IsSpace), IsSpace)`. -/
def TrimSpace (s : String) : String := ⟨trimRight (trimLeft s.data)⟩

/-! ## Go standard library: `fmt.Sprintf` for the verbs used in the sources -/

/-- An operand of `fmt.Sprintf`. -/
inductive Arg where
  | str (s : String)
  | bool (b : Bool)
  | int (n : Int)
  | strs (l : List String)

/-- Default formatting of an operand: a string (or an error, through its
`Error()` text) is printed as is, a bool as `true`/`false`, an int in decimal,
a slice of strings as `[a b c]`. -/
def fmtArg : Arg → List Char
  | .str s => s.data
  | .bool b => if b then "true".data else "false".data
  | .int n => (toString n).data
  | .strs l => ("[" ++ " ".intercalate l ++ "]").data

/-- Expansion of a format string: each `%v`, `%d`, `%s` consumes the next
operand (the sources only use these verbs, each with an operand of the
matching kind); every other character is copied. -/
def sprintfAux : List Char → List Arg → List Char
  | '%' :: _ :: rest, a :: as => fmtArg a ++ sprintfAux rest as
  | c :: rest, as => c :: sprintfAux rest as
  | [], _ => []

/-- Go `fmt.Sprintf`. -/
def Sprintf (format : String) (as : List Arg) : String := ⟨sprintfAux format.data as⟩

/-! ## Go standard library: `flag.FlagSet.Parse` -/

/-- Go `strconv.ParseBool`. -/
def parseBool (s : String) : Option Bool :=
  if s ∈ ["1", "t", "T", "TRUE", "true", "True"] then some true
  else if s ∈ ["0", "f", "F", "FALSE", "false", "False"] then some false
  else none

/-- The flag-name part of an argument is split at the first `=` that is not
its first character: `name[0:i]` and `name[i+1:]`. -/
def splitFlag (name : List Char) : List Char × Option (List Char) :=
  match name with
  | [] => ([], none)
  | c :: t =>
    match t.dropWhile (fun x => x != '=') with
    | [] => (c :: t, none)
    | _ :: v => (c :: t.takeWhile (fun x => x != '='), some v)

/-- The errors of `flag.FlagSet.Parse`.  Each but the last is printed on the
output of the flag set before the usage is shown, as `bad flag syntax: %s`,
`flag provided but not defined: -%s`,
`invalid boolean value %q for -%s: %v` and `flag needs an argument: -%s`;
`help` is `flag.ErrHelp`, for which only the usage is shown. -/
inductive FlagError where
  | badSyntax (arg : String)
  | notDefined (name : String)
  | invalidBool (value name : String)
  | needsArgument (name : String)
  | help
deriving DecidableEq, Repr

/-- Go `flag.FlagSet.Parse` (`parseOne` repeated) for a flag set whose defined
flags are `defs` (name, is it a boolean flag).  The result is the error when
parsing fails (bad syntax, undefined flag, `-h`/`-help`, bad or missing
value), and otherwise the value of the boolean flag `reset` (starting from
`reset`) with the remaining, positional arguments (`flags.Args()`). -/
def flagParse (defs : List (String × Bool)) :
    List String → Bool → Except FlagError (Bool × List String)
  | [], reset => .ok (reset, [])
  | s :: rest, reset =>
    match s.data with
    | '-' :: c :: cs =>
      if c = '-' ∧ cs = [] then .ok (reset, rest)
      else
        let name := if c = '-' then cs else c :: cs
        match name with
        | [] => .error (.badSyntax s)
        | n0 :: _ =>
          if n0 = '-' ∨ n0 = '=' then .error (.badSyntax s)
          else
            let (nm, val) := splitFlag name
            match defs.lookup ⟨nm⟩ with
            | none =>
              if nm = "help".data ∨ nm = "h".data then .error .help
              else .error (.notDefined ⟨nm⟩)
            | some true =>
              match val with
              | some v =>
                match parseBool ⟨v⟩ with
                | none => .error (.invalidBool ⟨v⟩ ⟨nm⟩)
                | some b => flagParse defs rest (if nm = "reset".data then b else reset)
              | none => flagParse defs rest (if nm = "reset".data then true else reset)
            | some false =>
              match val with
              | some _ => flagParse defs rest reset
              | none =>
                match rest with
                | [] => .error (.needsArgument ⟨nm⟩)
                | _ :: rest2 => flagParse defs rest2 reset
    | _ => .ok (reset, s :: rest)

/-- The flags of `Meta.FlagSet("unseal", FlagSetDefault)`, as documented under
"General Options" in `Help`, followed by the flag that `Run` adds with
`flags.BoolVar(&reset, "reset", false, "")`. -/
def unsealFlags : List (String × Bool) :=
  [("address", false), ("ca-cert", false), ("ca-path", false), ("insecure", true),
   ("reset", true)]

/-! ## `unseal.go` -/

/-- The `api.SealStatusResponse` fields that `Run` prints. -/
structure SealStatus where
  Sealed : Bool
  T : Int
  N : Int
  Progress : Int
deriving DecidableEq, Repr

/-- The receiver of `Run`: `Key` pre-seeds the key. -/
structure UnsealCommand where
  Key : String

/-- What `Run` obtains from its collaborators.  An `error` is represented by
its `Error()` text. -/
structure World where
  /-- `flags.Parse(args)` followed by `flags.Args()`: `none` is a parse error,
  otherwise the value of `reset` and the positional arguments. -/
  flagsParse : List String → Option (Bool × List String)
  /-- The error with which `flags.Parse(args)` fails, when it does.  The flag
  package prints it on the output of the flag set, which `Meta.FlagSet` relays
  to `Ui.Error`. -/
  flagsError : List String → Option FlagError
  /-- `c.Client()`: `some err` when the client cannot be created. -/
  clientErr : Option String
  /-- `password.Read(os.Stdin)`: the text read and the error, if any. -/
  passwordRead : String × Option String
  /-- `client.Sys().Unseal(key)`. -/
  Unseal : String → Except String SealStatus

/-- The observable actions of `Run`, in the order they happen. -/
inductive Event where
  | UiError (msg : String)
  | UiOutput (msg : String)
  | Printf (text : String)
  | PasswordRead
  | Unseal (key : String)
  /-- The flag package prints the text of a parse error, which names the
  offending argument, and the text reaches `Ui.Error`. -/
  | FlagOutput (err : FlagError)
deriving DecidableEq, Repr

/-- The literal of `UnsealCommand.Help`. -/
def helpText : String :=
  "\n" ++
  "Usage: vault unseal [options] [key]\n" ++
  "\n" ++
  "  Unseal the vault by entering a portion of the master key. Once all\n" ++
  "  portions are entered, the Vault will be unsealed.\n" ++
  "\n" ++
  "  Every Vault server initially starts as sealed. It cannot perform any\n" ++
  "  operation except unsealing until it is sealed. Secrets cannot be accessed\n" ++
  "  in any way until the vault is unsealed. This command allows you to enter\n" ++
  "  a portion of the master key to unseal the vault.\n" ++
  "\n" ++
  "  The unseal key can be specified via the command line, but this is\n" ++
  "  not recommended. The key may then live in your terminal history. This\n" ++
  "  only exists to assist in scripting.\n" ++
  "\n" ++
  "General Options:\n" ++
  "\n" ++
  "  -address=TODO           The address of the Vault server.\n" ++
  "\n" ++
  "  -ca-cert=path           Path to a PEM encoded CA cert file to use to\n" ++
  "                          verify the Vault server SSL certificate.\n" ++
  "\n" ++
  "  -ca-path=path           Path to a directory of PEM encoded CA cert files\n" ++
  "                          to verify the Vault server SSL certificate. If both\n" ++
  "                          -ca-cert and -ca-path are specified, -ca-path is used.\n" ++
  "\n" ++
  "  -insecure               Do not verify TLS certificate. This is highly\n" ++
  "                          not recommended. This is especially not recommended\n" ++
  "                          for unsealing a vault.\n" ++
  "\n" ++
  "Unseal Options:\n" ++
  "\n" ++
  "  -reset                  Reset the unsealing process by throwing away\n" ++
  "                          prior keys in process to unseal the vault.\n" ++
  "\n"

/-- `UnsealCommand.Help`. -/
def Help : String := TrimSpace helpText

/-- The format string of the warning `Run` gives when the password helper
fails. -/
def passwordErrorFormat : String :=
  "Error attempting to ask for password. The raw error message\n" ++
  "is shown below, but the most common reason for this error is\n" ++
  "that you attempted to pipe a value into unseal or you're\n" ++
  "executing `vault unseal` from outside of a terminal.\n\n" ++
  "You should use `vault unseal` from a terminal for maximum\n" ++
  "security. If this isn't an option, the unseal key can be passed\n" ++
  "in using the first parameter.\n\n" ++
  "Raw error: %s"

/-- The format string of the status report. -/
def statusFormat : String :=
  "Sealed: %v\n" ++
  "Key Shares: %d\n" ++
  "Key Threshold: %d\n" ++
  "Unseal Progress: %d"

/-- Lines 60-78 of `Run`: submit the trimmed value and report. -/
def submit (w : World) (value : String) : Int × List Event :=
  match w.Unseal (TrimSpace value) with
  | .error err =>
    (1, [.Unseal (TrimSpace value),
         .UiError (Sprintf "Error attempting unseal: %s" [.str err])])
  | .ok status =>
    (0, [.Unseal (TrimSpace value),
         .UiOutput (Sprintf statusFormat
            [.bool status.Sealed, .int status.N, .int status.T, .int status.Progress])])

/-- Lines 38-41 of `Run`: the value starts as `c.Key` and is replaced by the
first positional argument when there is one. -/
def selectValue (c : UnsealCommand) (args : List String) : String :=
  let value := c.Key
  match args with
  | a :: _ => a
  | [] => value

/-- What the flag package prints when `flags.Parse` fails: the text of the
error, except for `flag.ErrHelp`. -/
def flagOutput : Option FlagError → List Event
  | none => []
  | some .help => []
  | some err => [.FlagOutput err]

/-- `UnsealCommand.Run`: the return code and the trace of observable actions.
A parse error makes the flag package print the error and call `flags.Usage`,
which `Run` sets to `c.Ui.Error(c.Help())`.  The parsed value of `reset` is
not read again. -/
def Run (w : World) (c : UnsealCommand) (args : List String) : Int × List Event :=
  match w.flagsParse args with
  | none => (1, flagOutput (w.flagsError args) ++ [.UiError Help])
  | some (_reset, args) =>
    match w.clientErr with
    | some err => (2, [.UiError (Sprintf "Error initializing client: %s" [.str err])])
    | none =>
      let value := selectValue c args
      if value = "" then
        let prompt : List Event :=
          [.Printf (Sprintf "Key (will be hidden): " []), .PasswordRead,
           .Printf (Sprintf "\n" [])]
        match w.passwordRead with
        | (_, some err) => (1, prompt ++ [.UiError (Sprintf passwordErrorFormat [.str err])])
        | (value, none) =>
          let r := submit w value
          (r.1, prompt ++ r.2)
      else submit w value

/-! ## Go standard library: `path/filepath` (Unix: separator `/`, no volume) -/

/-- Go `os.IsPathSeparator`. -/
def isSep (c : Char) : Bool := c = '/'

/-- The test `r+k == n || os.IsPathSeparator(path[r+k])` on the rest
`path[r+k:]` of the path. -/
def endOrSep : List Char → Bool
  | [] => true
  | c :: _ => isSep c

/-- The inner loop of the `..` case of `Clean`, entered after the first
`out.w--` with `w` the new `out.w`:
`for out.w > dotdot && !os.IsPathSeparator(out.index(out.w)) { out.w-- }`.
The result is the final `out.w`. -/
def backtrack (buf : List Char) (dotdot : Nat) : Nat → Nat
  | 0 => 0
  | w + 1 =>
    if dotdot < w + 1 && !isSep (buf.getD (w + 1) '/') then backtrack buf dotdot w
    else w + 1

/-- The main loop `for r < n` of `Clean`.  `rest` is `path[r:]`, `out` is the
buffer `out.buf[:out.w]`, and every iteration consumes at least one byte of
`rest`, so that `fuel = len(path)` iterations are enough. -/
def cleanLoop (rooted : Bool) : Nat → List Char → List Char → Nat → List Char
  | 0, _, out, _ => out
  | fuel + 1, rest, out, dotdot =>
    match rest with
    | [] => out
    | c :: t =>
      if isSep c then
        -- empty path element
        cleanLoop rooted fuel t out dotdot
      else if c = '.' && endOrSep t then
        -- . element
        cleanLoop rooted fuel t out dotdot
      else if c = '.' && t.head? = some '.' && endOrSep t.tail then
        -- .. element: remove to last separator
        if dotdot < out.length then
          cleanLoop rooted fuel t.tail (out.take (backtrack out dotdot (out.length - 1))) dotdot
        else if !rooted then
          let out1 := if 0 < out.length then out ++ ['/'] else out
          let out2 := out1 ++ ['.', '.']
          cleanLoop rooted fuel t.tail out2 out2.length
        else cleanLoop rooted fuel t.tail out dotdot
      else
        -- real path element: add slash if needed, copy element
        let out1 :=
          if (rooted && out.length != 1) || (!rooted && out.length != 0) then out ++ ['/']
          else out
        cleanLoop rooted fuel (rest.dropWhile (fun x => !isSep x))
          (out1 ++ rest.takeWhile (fun x => !isSep x)) dotdot

/-- Go `filepath.Clean`. -/
def Clean (path : String) : String :=
  if path = "" then "."
  else
    let rooted := match path.data with
      | c :: _ => isSep c
      | [] => false
    let out := if rooted then
        cleanLoop rooted path.data.length path.data.tail ['/'] 1
      else
        cleanLoop rooted path.data.length path.data [] 0
    if out.length = 0 then "." else ⟨out⟩

/-- The loop of `Dir`, `for i >= 0 && !os.IsPathSeparator(path[i]) { i-- }`,
started with `i + 1 = k`; the result is the final `i + 1`. -/
def dirEnd (path : List Char) : Nat → Nat
  | 0 => 0
  | i + 1 => if isSep (path.getD i '/') then i + 1 else dirEnd path i

/-- Go `filepath.Dir`: `Clean(path[:i+1])` with `i` the index of the last
separator. -/
def Dir (path : String) : String :=
  Clean ⟨path.data.take (dirEnd path.data path.data.length)⟩

/-! ## `token_helper.go` -/

/-- What `mainToken` obtains from its collaborators. -/
structure TokenWorld where
  /-- `os.MkdirAll(path, perm)`: `some err` when it fails. -/
  MkdirAll : String → Nat → Option String
  /-- `(&vaultDisk.Command{Path: path}).Run(args)`. -/
  helperRun : String → List String → Int

/-- The observable actions of `mainToken`. -/
inductive TokenEvent where
  | MkdirAll (path : String) (perm : Nat)
  | LogPrintf (msg : String)
  | HelperRun (path : String) (args : List String)
deriving DecidableEq, Repr

/-- Line 17 of `mainToken`: `fmt.Sprintf("tmp/sessions/%s", session)`. -/
def tokenPath (session : String) : String :=
  Sprintf "tmp/sessions/%s" [.str session]

/-- `mainToken`: the return code and the trace of observable actions. -/
def mainToken (w : TokenWorld) (session : String) (args : List String) :
    Int × List TokenEvent :=
  if args.length = 0 then (1, [])
  else
    let path := tokenPath session
    match w.MkdirAll (Dir path) 0o755 with
    | some _ => (2, [.MkdirAll (Dir path) 0o755])
    | none =>
      (w.helperRun path args,
        [.MkdirAll (Dir path) 0o755,
         .LogPrintf (Sprintf "[DEBUG] token: %v %s" [.strs args, .str path]),
         .HelperRun path args])

/-! ## Reading a trace -/

/-- The keys submitted with `client.Sys().Unseal`, in order. -/
def unsealCalls : List Event → List String
  | [] => []
  | .Unseal k :: es => k :: unsealCalls es
  | _ :: es => unsealCalls es

/-- The messages given to `Ui.Output`, in order. -/
def uiOutputs : List Event → List String
  | [] => []
  | .UiOutput m :: es => m :: uiOutputs es
  | _ :: es => uiOutputs es

/-- The messages that `Run` itself gives to `Ui.Error`, in order. -/
def uiErrors : List Event → List String
  | [] => []
  | .UiError m :: es => m :: uiErrors es
  | _ :: es => uiErrors es

/-- The number of calls of `password.Read`. -/
def passwordReads : List Event → Nat
  | [] => 0
  | .PasswordRead :: es => passwordReads es + 1
  | _ :: es => passwordReads es

/-- The texts written by a run (`Ui.Output`, `Ui.Error`, the flag errors
relayed to it, and the prompt on the standard output), in order, each with
its channel. -/
def texts : List Event → List Event
  | [] => []
  | .FlagOutput e :: es => .FlagOutput e :: texts es
  | .UiError m :: es => .UiError m :: texts es
  | .UiOutput m :: es => .UiOutput m :: texts es
  | .Printf t :: es => .Printf t :: texts es
  | _ :: es => texts es

/-- The share value of a run after a successful parse with positional
arguments `pos`: the selected value, or, when that is empty, the text returned
by the password helper. -/
def shareValue (w : World) (c : UnsealCommand) (pos : List String) : String :=
  if selectValue c pos = "" then w.passwordRead.1 else selectValue c pos

/-- The key that reaches the submission at line 60 of `Run` after a
successful parse with positional arguments `pos` and a successful client
creation: the selected value, or, when that is empty, the text read by the
password helper; `none` when the password helper fails. -/
def acquiredKey (w : World) (c : UnsealCommand) (pos : List String) : Option String :=
  if selectValue c pos = "" then
    match w.passwordRead with
    | (_, some _) => none
    | (v, none) => some v
  else some (selectValue c pos)

/-- The fixed explanatory text of the warning about piped or non-terminal
input. -/
def passwordWarning : String :=
  "Error attempting to ask for password. The raw error message\n" ++
  "is shown below, but the most common reason for this error is\n" ++
  "that you attempted to pipe a value into unseal or you're\n" ++
  "executing `vault unseal` from outside of a terminal.\n\n" ++
  "You should use `vault unseal` from a terminal for maximum\n" ++
  "security. If this isn't an option, the unseal key can be passed\n" ++
  "in using the first parameter.\n\n"

/-- The four lines of the status report for a status. -/
def statusLines (st : SealStatus) : String :=
  "Sealed: " ++ (if st.Sealed then "true" else "false") ++ "\n" ++
  "Key Shares: " ++ toString st.N ++ "\n" ++
  "Key Threshold: " ++ toString st.T ++ "\n" ++
  "Unseal Progress: " ++ toString st.Progress

/-- A world for concrete runs: the Go flag parser over `unsealFlags`, a client
that can be created, a password helper that answers `pw`, and a server that
answers every submission with `st`. -/
def demoWorld (pw : String × Option String) (st : SealStatus) : World where
  flagsParse := fun args => (flagParse unsealFlags args false).toOption
  flagsError := fun args =>
    match flagParse unsealFlags args false with
    | .error err => some err
    | .ok _ => none
  clientErr := none
  passwordRead := pw
  Unseal := fun _ => .ok st

/-- The share value as the specification words it: the first positional
argument if present, else `Key`, else the value read from the password
helper. -/
def claimedValue (c : UnsealCommand) (pos : List String) (pw : String) : String :=
  match pos with
  | a :: _ => a
  | [] => if c.Key = "" then pw else c.Key

/-- The directories and modes given to `os.MkdirAll`, in order. -/
def mkdirCalls : List TokenEvent → List (String × Nat)
  | [] => []
  | .MkdirAll d m :: es => (d, m) :: mkdirCalls es
  | _ :: es => mkdirCalls es

/-- The paths handed to the disk token helper, in order. -/
def helperPaths : List TokenEvent → List String
  | [] => []
  | .HelperRun p _ :: es => p :: helperPaths es
  | _ :: es => helperPaths es

/-- After lexical cleaning, `p` has `tmp/sessions` as a proper directory
prefix: the cleaned path is `tmp/sessions/` followed by something. -/
def underSessions (p : String) : Bool :=
  "tmp/sessions/".data.isPrefixOf (Clean p).data &&
    decide ("tmp/sessions/".data.length < (Clean p).data.length)

/-- A world for concrete runs of `mainToken`: directories can be created and
the disk helper returns 0. -/
def demoTokenWorld : TokenWorld where
  MkdirAll := fun _ _ => none
  helperRun := fun _ _ => 0

/-! ## Path elements -/

/-- The elements of a path: the runs of characters between separators. -/
def splitSep : List Char → List (List Char)
  | [] => [[]]
  | c :: t =>
    if isSep c then [] :: splitSep t
    else
      match splitSep t with
      | e :: es => (c :: e) :: es
      | [] => [[c]]

/-- Lexical resolution of a list of elements on a stack of open directories
(innermost first): an empty element and `.` are skipped, `..` closes the
innermost open directory, any other element opens a directory.  The result is
`none` when a `..` comes while no directory is open. -/
def resolve : List (List Char) → List (List Char) → Option (List (List Char))
  | [], stk => some stk
  | e :: es, stk =>
    if e = [] ∨ e = ['.'] then resolve es stk
    else if e = ['.', '.'] then
      match stk with
      | [] => none
      | _ :: stk' => resolve es stk'
    else resolve es (e :: stk)

/-- The elements that remain of a relative path after lexical resolution,
outermost first; `none` when the path steps above its starting directory. -/
def remaining (l : List Char) : Option (List (List Char)) :=
  (resolve (splitSep l) []).map List.reverse

/-- Each element after a separator. -/
def joinElements : List (List Char) → List Char
  | [] => []
  | e :: es => '/' :: e ++ joinElements es

/-- The sessions directory followed by the given elements. -/
def sessionsJoin (es : List (List Char)) : String :=
  ⟨"tmp/sessions".data ++ joinElements es⟩

/-- The part of a path up to and including its last separator. -/
def dirPart (l : List Char) : List Char := l.take (dirEnd l l.length)

/-! ## Lemmas on the library functions -/

theorem rdropWhile_append_rtakeWhile (p : Char → Bool) (l : List Char) :
    l.rdropWhile p ++ l.rtakeWhile p = l := by
  simp only [List.rdropWhile, List.rtakeWhile, ← List.reverse_append,
    List.takeWhile_append_dropWhile, List.reverse_reverse]

theorem trim_decomposition (s : List Char) :
    s = s.takeWhile isSpace ++ trimRight (trimLeft s) ++ (trimLeft s).rtakeWhile isSpace := by
  rw [List.append_assoc]
  unfold trimRight
  rw [rdropWhile_append_rtakeWhile]
  unfold trimLeft
  rw [List.takeWhile_append_dropWhile]

theorem trim_head_not_space (s : List Char) (c : Char)
    (h : (trimRight (trimLeft s)).head? = some c) : isSpace c = false := by
  obtain ⟨u, hu⟩ : trimRight (trimLeft s) <+: trimLeft s := List.rdropWhile_prefix isSpace (trimLeft s)
  rcases ht : trimRight (trimLeft s) with _ | ⟨x, t⟩
  · rw [ht] at h; simp at h
  · rw [ht] at h hu
    simp at h
    subst h
    have hne : List.dropWhile isSpace s ≠ [] := by
      intro e
      unfold trimLeft at hu
      rw [e] at hu
      simp at hu
    have := List.head_dropWhile_not isSpace s hne
    unfold trimLeft at hu
    simp only [← hu, List.cons_append, List.head_cons] at this
    simpa using this

theorem trim_last_not_space (s : List Char) (c : Char)
    (h : (trimRight (trimLeft s)).getLast? = some c) : isSpace c = false := by
  have hne : (trimLeft s).rdropWhile isSpace ≠ [] := by
    intro e
    unfold trimRight at h
    rw [e] at h
    simp at h
  have := List.rdropWhile_last_not isSpace (trimLeft s) hne
  unfold trimRight at h
  rw [List.getLast?_eq_getLast _ hne] at h
  simp at h
  rw [h] at this
  simpa using this

theorem trim_eq_self (s : List Char)
    (hh : ∀ c, s.head? = some c → isSpace c = false)
    (hl : ∀ c, s.getLast? = some c → isSpace c = false) :
    trimRight (trimLeft s) = s := by
  have h1 : trimLeft s = s := by
    unfold trimLeft
    rw [List.dropWhile_eq_self_iff]
    intro hlen
    have := hh (s.get ⟨0, hlen⟩) (by
      rcases s with _ | ⟨x, t⟩
      · simp at hlen
      · simp)
    simpa using this
  rw [h1]
  unfold trimRight
  rw [List.rdropWhile_eq_self_iff]
  intro hne
  have := hl (s.getLast hne) (List.getLast?_eq_getLast _ hne)
  simp [this]

/-- What `strings.TrimSpace` does to a value. -/
theorem TrimSpace_spec (v : String) :
    (∀ c, (TrimSpace v).data.head? = some c → isSpace c = false) ∧
    (∀ c, (TrimSpace v).data.getLast? = some c → isSpace c = false) ∧
    (∃ pre suf, v.data = pre ++ (TrimSpace v).data ++ suf ∧
      (∀ c ∈ pre, isSpace c = true) ∧ (∀ c ∈ suf, isSpace c = true)) ∧
    ((∀ c, v.data.head? = some c → isSpace c = false) →
      (∀ c, v.data.getLast? = some c → isSpace c = false) → TrimSpace v = v) := by
  refine ⟨trim_head_not_space v.data, trim_last_not_space v.data, ?_, ?_⟩
  · refine ⟨v.data.takeWhile isSpace, (trimLeft v.data).rtakeWhile isSpace,
      trim_decomposition v.data, ?_, ?_⟩
    · intro c hc
      exact List.mem_takeWhile_imp hc
    · intro c hc
      exact List.mem_rtakeWhile_imp hc
  · intro hh hl
    apply String.ext
    exact trim_eq_self v.data hh hl

theorem sprintf_status (st : SealStatus) :
    Sprintf statusFormat
      [.bool st.Sealed, .int st.N, .int st.T, .int st.Progress] = statusLines st := by
  apply String.ext
  cases hS : st.Sealed <;>
    simp [Sprintf, statusFormat, statusLines, sprintfAux, fmtArg, hS]

set_option maxRecDepth 20000 in
theorem sprintf_passwordError (e : String) :
    Sprintf passwordErrorFormat [.str e] = passwordWarning ++ "Raw error: " ++ e := by
  apply String.ext
  simp [Sprintf, passwordErrorFormat, passwordWarning, sprintfAux, fmtArg]

theorem tokenPath_data (s : String) : (tokenPath s).data = "tmp/sessions/".data ++ s.data := by
  simp [tokenPath, Sprintf, sprintfAux, fmtArg]

theorem cleanLoop_nil (rooted : Bool) (fuel : Nat) (out : List Char) (dd : Nat) :
    cleanLoop rooted fuel [] out dd = out := by
  cases fuel <;> simp [cleanLoop]

theorem dirEnd_append (P l : List Char) (hl : '/' ∉ l) :
    ∀ k, k ≤ l.length → dirEnd (P ++ '/' :: l) (P.length + 1 + k) = P.length + 1 := by
  intro k
  induction k with
  | zero =>
    intro _
    have hget : (P ++ '/' :: l).getD P.length '/' = '/' := by
      rw [List.getD_eq_getElem?_getD, List.getElem?_append_right (le_refl _)]
      simp
    rw [Nat.add_zero, dirEnd, hget]
    simp [isSep]
  | succ k ih =>
    intro hk
    have hk2 : k < l.length := hk
    have hne : l[k] ≠ '/' := fun e => hl (e ▸ List.getElem_mem hk2)
    have hget : (P ++ '/' :: l).getD (P.length + 1 + k) '/' = l[k] := by
      rw [List.getD_eq_getElem?_getD, List.getElem?_append_right (by omega)]
      have : P.length + 1 + k - P.length = k + 1 := by omega
      simp [this, hk2]
    rw [← Nat.add_assoc, dirEnd, hget]
    simp only [isSep, decide_eq_true_eq, hne, if_false]
    exact ih (by omega)

theorem Dir_tokenPath (s : String) (h : '/' ∉ s.data) :
    Dir (tokenPath s) = "tmp/sessions" := by
  have hd := tokenPath_data s
  have he : dirEnd (tokenPath s).data (tokenPath s).data.length = 13 := by
    rw [hd]
    have := dirEnd_append "tmp/sessions".data s.data h s.data.length (le_refl _)
    have e1 : "tmp/sessions/".data ++ s.data = "tmp/sessions".data ++ '/' :: s.data := by simp
    have e2 : ("tmp/sessions".data ++ '/' :: s.data).length
        = "tmp/sessions".data.length + 1 + s.data.length := by simp; omega
    rw [e1, e2, this]
    rfl
  unfold Dir
  rw [he, hd]
  have : List.take 13 ("tmp/sessions/".data ++ s.data) = "tmp/sessions/".data := by
    simp
  rw [this]
  decide

theorem cleanLoop_fuel_succ (rooted : Bool) :
    ∀ (n : Nat) (rest out : List Char) (dd : Nat), rest.length ≤ n →
      cleanLoop rooted (n + 1) rest out dd = cleanLoop rooted n rest out dd := by
  intro n
  induction n with
  | zero =>
    intro rest out dd h
    have : rest = [] := List.length_eq_zero.mp (Nat.le_zero.mp h)
    subst this
    simp [cleanLoop]
  | succ n ih =>
    intro rest out dd h
    rcases rest with _ | ⟨c, t⟩
    · simp [cleanLoop]
    · have ht : t.length ≤ n := by simpa using h
      have htt : t.tail.length ≤ n := by
        have := List.length_tail t
        omega
      rw [cleanLoop]
      conv_rhs => rw [cleanLoop]
      by_cases hc : isSep c = true
      · simp only [hc, if_true]
        exact ih t out dd ht
      · have hdw : ((c :: t).dropWhile (fun x => !isSep x)).length ≤ n := by
          have h1 : (c :: t).dropWhile (fun x => !isSep x) = t.dropWhile (fun x => !isSep x) := by
            simp [List.dropWhile_cons, hc]
          rw [h1]
          exact le_trans (List.dropWhile_sublist _).length_le ht
        simp only [hc]
        split_ifs <;> first | exact ih _ _ _ ht | exact ih _ _ _ htt | exact ih _ _ _ hdw

/-- The loop of `Clean` does not depend on fuel beyond the length of the rest
of the path: the `len(path)` iterations `Clean` allows are always enough. -/
theorem cleanLoop_fuel (rooted : Bool) (rest out : List Char) (dd : Nat) (k : Nat) :
    cleanLoop rooted (rest.length + k) rest out dd = cleanLoop rooted rest.length rest out dd := by
  induction k with
  | zero => rfl
  | succ k ih =>
    rw [← Nat.add_assoc, cleanLoop_fuel_succ rooted _ rest out dd (by omega), ih]

theorem tokenPath_injective (s1 s2 : String) (h : tokenPath s1 = tokenPath s2) : s1 = s2 := by
  have := congrArg String.data h
  rw [tokenPath_data, tokenPath_data] at this
  exact String.ext (List.append_cancel_left this)

/-- The value of the flag `reset` plays no part in `Run`. -/
theorem Run_reset_irrelevant (w : World) (c : UnsealCommand) (args : List String) (b : Bool) :
    Run { w with flagsParse := fun a => (w.flagsParse a).map (fun p => (b, p.2)) } c args =
      Run w c args := by
  unfold Run
  rcases h : w.flagsParse args with _ | ⟨r, pos⟩ <;> simp [h, submit]

theorem mainToken_ok (w : TokenWorld) (s : String) (args : List String) (hargs : args ≠ [])
    (hm : w.MkdirAll (Dir (tokenPath s)) 0o755 = none) :
    mainToken w s args =
      (w.helperRun (tokenPath s) args,
        [.MkdirAll (Dir (tokenPath s)) 0o755,
         .LogPrintf (Sprintf "[DEBUG] token: %v %s" [.strs args, .str (tokenPath s)]),
         .HelperRun (tokenPath s) args]) := by
  have hlen : ¬ args.length = 0 := fun h => hargs (List.length_eq_zero.mp h)
  unfold mainToken
  rw [if_neg hlen]
  simp only [hm]

theorem mainToken_mkdir_fails (w : TokenWorld) (s : String) (args : List String)
    (hargs : args ≠ []) (e : String)
    (hm : w.MkdirAll (Dir (tokenPath s)) 0o755 = some e) :
    mainToken w s args = (2, [.MkdirAll (Dir (tokenPath s)) 0o755]) := by
  have hlen : ¬ args.length = 0 := fun h => hargs (List.length_eq_zero.mp h)
  unfold mainToken
  rw [if_neg hlen]
  simp only [hm]

/-! ## Lemmas on path elements -/

theorem splitSep_sep (t : List Char) : splitSep ('/' :: t) = [] :: splitSep t := by
  simp [splitSep, isSep]

theorem splitSep_ne_nil (l : List Char) : splitSep l ≠ [] := by
  cases l with
  | nil => simp [splitSep]
  | cons c t =>
    rw [splitSep]
    split_ifs
    · simp
    · split <;> simp

theorem splitSep_notSep (c : Char) (t : List Char) (hc : isSep c = false) :
    splitSep (c :: t) = (c :: (splitSep t).headI) :: (splitSep t).tail := by
  rw [splitSep]
  simp only [hc]
  rcases h : splitSep t with _ | ⟨e, es⟩
  · exact absurd h (splitSep_ne_nil t)
  · simp

theorem splitSep_head (l : List Char) :
    (splitSep l).headI = l.takeWhile (fun x => !isSep x) := by
  induction l with
  | nil => simp [splitSep]
  | cons c t ih =>
    by_cases hc : isSep c = true
    · have : c = '/' := by simpa [isSep] using hc
      subst this
      simp [splitSep_sep, isSep]
    · have hc' : isSep c = false := by simpa using hc
      rw [splitSep_notSep c t hc', List.takeWhile_cons]
      simp [hc', ih]

theorem splitSep_eq (l : List Char) :
    splitSep l = l.takeWhile (fun x => !isSep x) :: (splitSep l).tail := by
  rw [← splitSep_head]
  rcases h : splitSep l with _ | ⟨e, es⟩
  · exact absurd h (splitSep_ne_nil l)
  · simp

theorem resolve_skip_empty (es stk : List (List Char)) :
    resolve ([] :: es) stk = resolve es stk := by
  simp [resolve]

theorem resolve_dropWhile (l : List Char) (stk : List (List Char)) :
    resolve (splitSep (l.dropWhile (fun x => !isSep x))) stk =
      resolve (splitSep l).tail stk := by
  induction l with
  | nil => simp [splitSep, resolve]
  | cons c t ih =>
    by_cases hc : isSep c = true
    · have : c = '/' := by simpa [isSep] using hc
      subst this
      simp [splitSep_sep, isSep, resolve_skip_empty]
    · have hc' : isSep c = false := by simpa using hc
      rw [splitSep_notSep c t hc', List.dropWhile_cons]
      simp [hc', ih]

theorem resolve_cons (e : List Char) (es stk : List (List Char)) :
    resolve (e :: es) stk =
      if e = [] ∨ e = ['.'] then resolve es stk
      else if e = ['.', '.'] then
        match stk with
        | [] => none
        | _ :: stk' => resolve es stk'
      else resolve es (e :: stk) := by
  simp only [resolve]

theorem resolve_real (e : List Char) (es stk : List (List Char))
    (h1 : ¬ (e = [] ∨ e = ['.'])) (h2 : ¬ e = ['.', '.']) :
    resolve (e :: es) stk = resolve es (e :: stk) := by
  simp only [resolve, if_neg h1, if_neg h2]

theorem joinElements_append (a b : List (List Char)) :
    joinElements (a ++ b) = joinElements a ++ joinElements b := by
  induction a with
  | nil => rfl
  | cons e es ih => simp [joinElements, ih]

theorem backtrack_succ (buf : List Char) (dd w : Nat) :
    backtrack buf dd (w + 1) =
      if dd < w + 1 && !isSep (buf.getD (w + 1) '/') then backtrack buf dd w else w + 1 := by
  rw [backtrack]

theorem backtrack_pop (X e : List Char) (hX : X ≠ []) (he : '/' ∉ e) :
    ∀ k, k ≤ e.length → backtrack (X ++ '/' :: e) 0 (X.length + k) = X.length := by
  obtain ⟨m, hm⟩ : ∃ m, X.length = m + 1 :=
    Nat.exists_eq_succ_of_ne_zero (fun h => hX (List.length_eq_zero.mp h))
  intro k
  induction k with
  | zero =>
    intro _
    have hget : (X ++ '/' :: e).getD (m + 1) '/' = '/' := by
      rw [List.getD_eq_getElem?_getD, List.getElem?_append_right (by omega)]
      simp [hm]
    rw [Nat.add_zero, hm, backtrack_succ, hget]
    simp [isSep]
  | succ k ih =>
    intro hk
    have hk2 : k < e.length := hk
    have hne : e[k] ≠ '/' := fun h => he (h ▸ List.getElem_mem hk2)
    have hget : (X ++ '/' :: e).getD (X.length + k + 1) '/' = e[k] := by
      rw [List.getD_eq_getElem?_getD, List.getElem?_append_right (by omega)]
      have : X.length + k + 1 - X.length = k + 1 := by omega
      rw [this]
      simp [hk2]
    rw [← Nat.add_assoc, backtrack_succ, hget]
    have : isSep e[k] = false := by simp [isSep, hne]
    simp only [this]
    simp
    exact ih (by omega)

theorem endOrSep_takeWhile (t : List Char) (h : endOrSep t = true) :
    t.takeWhile (fun x => !isSep x) = [] ∧ t.dropWhile (fun x => !isSep x) = t := by
  cases t with
  | nil => simp
  | cons d t' =>
    have hd : isSep d = true := by simpa [endOrSep] using h
    simp [hd]

theorem takeWhile_nil_endOrSep (t : List Char)
    (h : t.takeWhile (fun x => !isSep x) = []) : endOrSep t = true := by
  cases t with
  | nil => rfl
  | cons d t' =>
    by_cases hd : isSep d = true
    · simpa [endOrSep] using hd
    · simp [List.takeWhile_cons, hd] at h

theorem takeWhile_notSep_free (l : List Char) : '/' ∉ l.takeWhile (fun x => !isSep x) := by
  intro h
  have := List.mem_takeWhile_imp h
  simp [isSep] at this

/-- The loop of `Clean` on a relative path that never steps above the
directory held in the buffer: the buffer is `base` followed by the open
directories, and the loop ends with `base` followed by the directories that
lexical resolution leaves open. -/
theorem cleanLoop_resolve (base : List Char) (hb : base ≠ []) :
    ∀ (fuel : Nat) (rest : List Char) (stk r : List (List Char)),
      rest.length ≤ fuel → (∀ e ∈ stk, '/' ∉ e) →
      resolve (splitSep rest) stk = some r →
      cleanLoop false fuel rest (base ++ joinElements stk.reverse) 0 =
        base ++ joinElements r.reverse := by
  intro fuel
  induction fuel with
  | zero =>
    intro rest stk r hlen _ hres
    have : rest = [] := List.length_eq_zero.mp (Nat.le_zero.mp hlen)
    subst this
    have : stk = r := by simpa [splitSep, resolve] using hres
    subst this
    simp [cleanLoop]
  | succ n ih =>
    intro rest stk r hlen hstk hres
    rcases rest with _ | ⟨c, t⟩
    · have : stk = r := by simpa [splitSep, resolve] using hres
      subst this
      simp [cleanLoop]
    · have ht : t.length ≤ n := by simpa using hlen
      have hout : (base ++ joinElements stk.reverse).length ≠ 0 := by
        simp [hb]
      rw [cleanLoop]
      by_cases hc : isSep c = true
      · have : c = '/' := by simpa [isSep] using hc
        subst this
        simp only [hc, if_true]
        rw [splitSep_sep, resolve_skip_empty] at hres
        exact ih t stk r ht hstk hres
      · have hc' : isSep c = false := by simpa using hc
        have hsp := splitSep_eq (c :: t)
        have hdw := resolve_dropWhile (c :: t)
        have htw : (c :: t).takeWhile (fun x => !isSep x)
            = c :: t.takeWhile (fun x => !isSep x) := by
          simp [List.takeWhile_cons, hc']
        have hdrop : (c :: t).dropWhile (fun x => !isSep x)
            = t.dropWhile (fun x => !isSep x) := by
          simp [List.dropWhile_cons, hc']
        rw [htw] at hsp
        rw [hdrop] at hdw
        rw [hsp] at hres
        simp only [hc', Bool.false_eq_true, if_false]
        by_cases h2 : (c = '.' && endOrSep t) = true
        · simp only [h2, if_true]
          obtain ⟨hc2, he⟩ : c = '.' ∧ endOrSep t = true := by simpa using h2
          subst hc2
          obtain ⟨htw2, hdwt⟩ := endOrSep_takeWhile t he
          rw [htw2] at hres
          have hres2 : resolve (splitSep t) stk = some r := by
            have := hdw stk
            rw [hdwt] at this
            rw [this]
            simpa [resolve] using hres
          exact ih t stk r ht hstk hres2
        · by_cases h3 : (c = '.' && t.head? = some '.' && endOrSep t.tail) = true
          · simp only [h2, h3, if_true, Bool.false_eq_true, if_false]
            obtain ⟨⟨hc2, hhead⟩, he⟩ :
                (c = '.' ∧ t.head? = some '.') ∧ endOrSep t.tail = true := by
              simpa using h3
            subst hc2
            rcases t with _ | ⟨d, t2⟩
            · simp at hhead
            · have hd : d = '.' := by simpa using hhead
              subst hd
              simp only [List.tail_cons] at he ⊢
              obtain ⟨htw2, hdwt⟩ := endOrSep_takeWhile t2 he
              have hdot : isSep '.' = false := by decide
              have htw3 : ('.' :: t2).takeWhile (fun x => !isSep x) = ['.'] := by
                simp [List.takeWhile_cons, hdot, htw2]
              have hdw3 : ('.' :: t2).dropWhile (fun x => !isSep x) = t2 := by
                simp [List.dropWhile_cons, hdot, hdwt]
              rw [htw3] at hres
              rw [hdw3] at hdw
              rcases stk with _ | ⟨e, stk'⟩
              · simp [resolve] at hres
              · have hres2 : resolve (splitSep t2) stk' = some r := by
                  rw [hdw stk']
                  simpa [resolve] using hres
                have he' : '/' ∉ e := hstk e (by simp)
                have hstk' : ∀ x ∈ stk', '/' ∉ x := fun x hx => hstk x (by simp [hx])
                have hX : base ++ joinElements stk'.reverse ≠ [] := by simp [hb]
                have hbuf : base ++ joinElements (e :: stk').reverse
                    = (base ++ joinElements stk'.reverse) ++ '/' :: e := by
                  simp [joinElements_append, joinElements]
                have hpos : 0 < (base ++ joinElements (e :: stk').reverse).length :=
                  Nat.pos_of_ne_zero hout
                rw [if_pos hpos, hbuf]
                have hlen2 : ((base ++ joinElements stk'.reverse) ++ '/' :: e).length - 1
                    = (base ++ joinElements stk'.reverse).length + e.length := by
                  simp only [List.length_append, List.length_cons]
                  omega
                rw [hlen2, backtrack_pop _ e hX he' e.length (le_refl _)]
                rw [List.take_left']
                · exact ih t2 stk' r (by simp at ht; omega) hstk' hres2
                · rfl
          · simp only [h2, h3, Bool.false_eq_true, if_false]
            have hreal1 : ¬ (c :: t.takeWhile (fun x => !isSep x) = [] ∨
                c :: t.takeWhile (fun x => !isSep x) = ['.']) := by
              intro h
              rcases h with h | h
              · simp at h
              · simp only [List.cons.injEq] at h
                exact h2 (by simp [h.1, takeWhile_nil_endOrSep t h.2])
            have hreal2 : ¬ (c :: t.takeWhile (fun x => !isSep x) = ['.', '.']) := by
              intro h
              simp only [List.cons.injEq] at h
              rcases t with _ | ⟨d, t2⟩
              · simp at h
              · have h2' := h.2
                rw [List.takeWhile_cons] at h2'
                split at h2'
                · injection h2' with hd ht2
                  exact h3 (by simp [h.1, hd, takeWhile_nil_endOrSep t2 ht2])
                · cases h2'
            have hres2 : resolve (splitSep (t.dropWhile (fun x => !isSep x)))
                ((c :: t.takeWhile (fun x => !isSep x)) :: stk) = some r := by
              rw [hdw]
              rw [resolve_real _ _ _ hreal1 hreal2] at hres
              exact hres
            have hfree : '/' ∉ c :: t.takeWhile (fun x => !isSep x) := by
              rw [← htw]
              exact takeWhile_notSep_free (c :: t)
            have hstk2 : ∀ x ∈ (c :: t.takeWhile (fun x => !isSep x)) :: stk, '/' ∉ x := by
              intro x hx
              rcases List.mem_cons.mp hx with h | h
              · rw [h]; exact hfree
              · exact hstk x h
            have hlen3 : (t.dropWhile (fun x => !isSep x)).length ≤ n :=
              le_trans (List.dropWhile_sublist _).length_le ht
            have := ih _ _ r hlen3 hstk2 hres2
            rw [← this]
            simp [hb, htw, hdrop, joinElements_append, joinElements]

theorem splitSep_append_sep (a b : List Char) :
    splitSep (a ++ '/' :: b) = splitSep a ++ splitSep b := by
  induction a with
  | nil =>
    show splitSep ('/' :: b) = splitSep [] ++ splitSep b
    rw [splitSep_sep]
    rfl
  | cons c a ih =>
    by_cases hc : isSep c = true
    · have : c = '/' := by simpa [isSep] using hc
      subst this
      simp [splitSep_sep, ih]
    · have hc' : isSep c = false := by simpa using hc
      rw [List.cons_append, splitSep_notSep c _ hc', splitSep_notSep c a hc', ih]
      rcases h : splitSep a with _ | ⟨e, es⟩
      · exact absurd h (splitSep_ne_nil a)
      · simp

theorem splitSep_free (l : List Char) : ∀ e ∈ splitSep l, '/' ∉ e := by
  induction l with
  | nil => simp [splitSep]
  | cons c t ih =>
    intro e he
    by_cases hc : isSep c = true
    · have : c = '/' := by simpa [isSep] using hc
      subst this
      rw [splitSep_sep] at he
      rcases List.mem_cons.mp he with h | h
      · simp [h]
      · exact ih e h
    · have hc' : isSep c = false := by simpa using hc
      have hcne : c ≠ '/' := by simpa [isSep] using hc'
      rw [splitSep_notSep c t hc'] at he
      rcases h : splitSep t with _ | ⟨x, xs⟩
      · exact absurd h (splitSep_ne_nil t)
      · rw [h] at he ih
        simp only [List.headI_cons, List.tail_cons] at he
        rcases List.mem_cons.mp he with h1 | h1
        · subst h1
          have hx := ih x (by simp)
          intro hmem
          rcases List.mem_cons.mp hmem with h2 | h2
          · exact hcne h2.symm
          · exact hx h2
        · exact ih e (by simp [h1])

theorem splitSep_single (e : List Char) (he : '/' ∉ e) : splitSep e = [e] := by
  induction e with
  | nil => rfl
  | cons c t ih =>
    have hc : isSep c = false := by
      have : c ≠ '/' := fun h => he (by simp [h])
      simp [isSep, this]
    have ht : '/' ∉ t := fun h => he (by simp [h])
    rw [splitSep_notSep c t hc, ih ht]
    simp

theorem resolve_append (xs ys : List (List Char)) :
    ∀ stk, resolve (xs ++ ys) stk = (resolve xs stk).bind (resolve ys) := by
  induction xs with
  | nil => intro stk; simp [resolve]
  | cons e es ih =>
    intro stk
    rw [List.cons_append, resolve_cons, resolve_cons]
    split_ifs
    · exact ih stk
    · rcases stk with _ | ⟨x, stk'⟩
      · simp
      · exact ih stk'
    · exact ih _

theorem resolve_mem (es : List (List Char)) :
    ∀ stk r, resolve es stk = some r →
      ∀ x ∈ r, x ∈ stk ∨ (x ∈ es ∧ ¬ (x = [] ∨ x = ['.']) ∧ ¬ x = ['.', '.']) := by
  induction es with
  | nil =>
    intro stk r h x hx
    simp [resolve] at h
    subst h
    exact Or.inl hx
  | cons e es ih =>
    intro stk r h x hx
    rw [resolve_cons] at h
    split_ifs at h with h1 h2
    · rcases ih stk r h x hx with h3 | h3
      · exact Or.inl h3
      · exact Or.inr ⟨List.mem_cons_of_mem _ h3.1, h3.2⟩
    · rcases stk with _ | ⟨y, stk'⟩
      · simp at h
      · rcases ih stk' r h x hx with h3 | h3
        · exact Or.inl (List.mem_cons_of_mem _ h3)
        · exact Or.inr ⟨List.mem_cons_of_mem _ h3.1, h3.2⟩
    · rcases ih (e :: stk) r h x hx with h3 | h3
      · rcases List.mem_cons.mp h3 with h4 | h4
        · subst h4
          exact Or.inr ⟨by simp, h1, h2⟩
        · exact Or.inl h4
      · exact Or.inr ⟨List.mem_cons_of_mem _ h3.1, h3.2⟩

theorem resolve_all_real (ys : List (List Char)) :
    ∀ stk, (∀ x ∈ ys, ¬ (x = [] ∨ x = ['.']) ∧ ¬ x = ['.', '.']) →
      resolve ys stk = some (ys.reverse ++ stk) := by
  induction ys with
  | nil => intro stk _; simp [resolve]
  | cons e es ih =>
    intro stk h
    have he := h e (by simp)
    rw [resolve_real e es stk he.1 he.2, ih (e :: stk) (fun x hx => h x (by simp [hx]))]
    simp

theorem splitSep_join (ds : List (List Char)) (hne : ds ≠ [])
    (hfree : ∀ x ∈ ds, '/' ∉ x) : splitSep (joinElements ds).tail = ds := by
  induction ds with
  | nil => exact absurd rfl hne
  | cons e ds ih =>
    have he : '/' ∉ e := hfree e (by simp)
    rcases ds with _ | ⟨e2, ds2⟩
    · simp [joinElements, splitSep_single e he]
    · have ih' := ih (by simp) (fun x hx => hfree x (by simp [hx]))
      have hj : joinElements (e :: e2 :: ds2) = '/' :: (e ++ '/' :: (joinElements (e2 :: ds2)).tail) := by
        simp [joinElements]
      rw [hj, List.tail_cons, splitSep_append_sep, splitSep_single e he, ih']
      simp

/-- `Clean` of a path below `tmp/sessions/` whose rest never steps above the
sessions directory. -/
theorem Clean_sessions (l : List Char) (es : List (List Char))
    (h : remaining l = some es) :
    Clean ⟨"tmp/sessions/".data ++ l⟩ = sessionsJoin es := by
  obtain ⟨r, hr, rfl⟩ : ∃ r, resolve (splitSep l) [] = some r ∧ r.reverse = es := by
    simpa [remaining] using h
  have step : ∀ fuel, cleanLoop false (fuel + 4) ("tmp/sessions/".data ++ l) [] 0
      = cleanLoop false fuel l "tmp/sessions".data 0 := by
    intro fuel
    simp [cleanLoop, isSep, endOrSep]
  have hloop := cleanLoop_resolve "tmp/sessions".data (by simp) (l.length + 9) l [] r
    (by omega) (by simp) hr
  simp only [List.reverse_nil, joinElements, List.append_nil] at hloop
  have hlen : ("tmp/sessions/".data ++ l).length = (l.length + 9) + 4 := by
    simp
  have hne : (⟨"tmp/sessions/".data ++ l⟩ : String) ≠ "" := by
    intro h
    have := congrArg String.data h
    simp at this
  have hroot : (match "tmp/sessions/".data ++ l with
      | c :: _ => isSep c
      | [] => false) = false := by
    simp [isSep]
  unfold Clean
  rw [if_neg hne]
  simp only [hroot, hlen, step, hloop]
  simp [sessionsJoin]

theorem exists_last_sep (l : List Char) (h : '/' ∈ l) :
    ∃ a e, l = a ++ '/' :: e ∧ '/' ∉ e := by
  obtain ⟨as, bs, hl, hn⟩ := List.eq_append_cons_of_mem (List.mem_reverse.mpr h)
  refine ⟨bs.reverse, as.reverse, ?_, by simpa using hn⟩
  have := congrArg List.reverse hl
  simpa using this

theorem dirEnd_no_sep (l : List Char) (h : '/' ∉ l) :
    ∀ k, k ≤ l.length → dirEnd l k = 0 := by
  intro k
  induction k with
  | zero => intro _; rfl
  | succ k ih =>
    intro hk
    have hk2 : k < l.length := hk
    have hne : l[k] ≠ '/' := fun e => h (e ▸ List.getElem_mem hk2)
    have hget : l.getD k '/' = l[k] := by
      simp [List.getD_eq_getElem?_getD, hk2]
    rw [dirEnd, hget]
    simp only [isSep, decide_eq_true_eq, hne, if_false]
    exact ih (by omega)

theorem dirPart_cases (l : List Char) :
    ('/' ∉ l ∧ dirPart l = []) ∨
    (∃ a e, l = a ++ '/' :: e ∧ '/' ∉ e ∧ dirPart l = a ++ ['/']) := by
  by_cases h : '/' ∈ l
  · right
    obtain ⟨a, e, hl, he⟩ := exists_last_sep l h
    refine ⟨a, e, hl, he, ?_⟩
    have hlen : l.length = a.length + 1 + e.length := by
      rw [hl]; simp; omega
    unfold dirPart
    rw [hlen, hl, dirEnd_append a e he e.length (le_refl _)]
    have : a ++ '/' :: e = (a ++ ['/']) ++ e := by simp
    rw [this, List.take_left' (by simp)]
  · left
    refine ⟨h, ?_⟩
    unfold dirPart
    rw [dirEnd_no_sep l h l.length (le_refl _)]
    rfl

/-- `Dir` of a path below `tmp/sessions/` cleans the path up to its last
separator. -/
theorem Dir_sessions (l : List Char) :
    Dir ⟨"tmp/sessions/".data ++ l⟩ = Clean ⟨"tmp/sessions/".data ++ dirPart l⟩ := by
  unfold Dir
  congr 1
  apply String.ext
  show List.take (dirEnd ("tmp/sessions/".data ++ l) ("tmp/sessions/".data ++ l).length)
      ("tmp/sessions/".data ++ l) = "tmp/sessions/".data ++ dirPart l
  rcases dirPart_cases l with ⟨h, hd⟩ | ⟨a, e, hl, he, hd⟩
  · rw [hd]
    have e1 : "tmp/sessions/".data ++ l = "tmp/sessions".data ++ '/' :: l := by simp
    have e2 : ("tmp/sessions".data ++ '/' :: l).length
        = "tmp/sessions".data.length + 1 + l.length := by simp; omega
    rw [e1, e2, dirEnd_append "tmp/sessions".data l h l.length (le_refl _)]
    have e3 : "tmp/sessions".data ++ '/' :: l = "tmp/sessions/".data ++ l := by simp
    rw [e3, List.take_left' (by rfl)]
    simp
  · rw [hd, hl]
    have e1 : "tmp/sessions/".data ++ (a ++ '/' :: e)
        = ("tmp/sessions/".data ++ a) ++ '/' :: e := by simp
    have e2 : (("tmp/sessions/".data ++ a) ++ '/' :: e).length
        = ("tmp/sessions/".data ++ a).length + 1 + e.length := by
      simp only [List.length_append, List.length_cons]; omega
    rw [e1, e2, dirEnd_append ("tmp/sessions/".data ++ a) e he e.length (le_refl _)]
    have e3 : ("tmp/sessions/".data ++ a) ++ '/' :: e
        = ("tmp/sessions/".data ++ (a ++ ['/'])) ++ e := by simp
    rw [e3, List.take_left' (by simp)]

theorem remaining_dirPart (l : List Char) (es : List (List Char))
    (h : remaining l = some es) : ∃ ds, remaining (dirPart l) = some ds := by
  rcases dirPart_cases l with ⟨_, hd⟩ | ⟨a, e, hl, he, hd⟩
  · rw [hd]
    exact ⟨[], by simp [remaining, splitSep, resolve]⟩
  · obtain ⟨r, hr⟩ : ∃ r, resolve (splitSep l) [] = some r := by
      rcases h' : resolve (splitSep l) [] with _ | r
      · simp [remaining, h'] at h
      · exact ⟨r, rfl⟩
    rw [hl, splitSep_append_sep, resolve_append] at hr
    rcases h1 : resolve (splitSep a) [] with _ | r1
    · simp [h1] at hr
    · refine ⟨r1.reverse, ?_⟩
      have : splitSep (a ++ ['/']) = splitSep a ++ splitSep [] := splitSep_append_sep a []
      rw [hd]
      simp [remaining, this, resolve_append, h1, splitSep, resolve]

theorem remaining_real (l : List Char) (es : List (List Char))
    (h : remaining l = some es) :
    ∀ x ∈ es, '/' ∉ x ∧ ¬ (x = [] ∨ x = ['.']) ∧ ¬ x = ['.', '.'] := by
  obtain ⟨r, hr, rfl⟩ : ∃ r, resolve (splitSep l) [] = some r ∧ r.reverse = es := by
    simpa [remaining] using h
  intro x hx
  rcases resolve_mem _ _ _ hr x (List.mem_reverse.mp hx) with h1 | h1
  · simp at h1
  · exact ⟨splitSep_free l x h1.1, h1.2⟩

theorem Clean_sessionsJoin (ds : List (List Char))
    (hreal : ∀ x ∈ ds, '/' ∉ x ∧ ¬ (x = [] ∨ x = ['.']) ∧ ¬ x = ['.', '.']) :
    Clean (sessionsJoin ds) = sessionsJoin ds := by
  rcases ds with _ | ⟨e, ds'⟩
  · decide
  · have hsplit := splitSep_join (e :: ds') (by simp) (fun x hx => (hreal x hx).1)
    have hrem : remaining (joinElements (e :: ds')).tail = some (e :: ds') := by
      unfold remaining
      rw [hsplit, resolve_all_real (e :: ds') [] (fun x hx => (hreal x hx).2)]
      simp
    have := Clean_sessions _ _ hrem
    have hj : sessionsJoin (e :: ds')
        = ⟨"tmp/sessions/".data ++ (joinElements (e :: ds')).tail⟩ := by
      apply String.ext
      simp [sessionsJoin, joinElements]
    rw [hj] at this ⊢
    exact this

theorem underSessions_iff (p : String) (ds : List (List Char))
    (h : Clean p = sessionsJoin ds) (hne : ∀ x ∈ ds, x ≠ []) :
    underSessions p = true ↔ ds ≠ [] := by
  unfold underSessions
  rw [h]
  rcases ds with _ | ⟨e, ds'⟩
  · simp only [ne_eq, not_true_eq_false, iff_false]
    decide
  · rcases e with _ | ⟨c, e'⟩
    · exact absurd rfl (hne [] (by simp))
    · simp [sessionsJoin, joinElements, List.isPrefixOf]

/-! ## The claims -/

/-- C1 (the code departs from the claim): with `-reset` and a share on the
command line the flag is parsed as set, yet `Run` requests nothing but the
submission of the share, and behaves exactly as it does without the flag. -/
theorem Run_reset_submits_share :
    (demoWorld ("", none) ⟨true, 3, 5, 2⟩).flagsParse ["-reset", "abc"] = some (true, ["abc"]) ∧
    Run (demoWorld ("", none) ⟨true, 3, 5, 2⟩) ⟨""⟩ ["-reset", "abc"] =
      (0, [.Unseal "abc",
           .UiOutput "Sealed: true\nKey Shares: 5\nKey Threshold: 3\nUnseal Progress: 2"]) ∧
    Run (demoWorld ("", none) ⟨true, 3, 5, 2⟩) ⟨""⟩ ["-reset", "abc"] =
      Run (demoWorld ("", none) ⟨true, 3, 5, 2⟩) ⟨""⟩ ["abc"] := by
  decide

/-- C2 as stated fails: for the session `abc` and the arguments `get` the
directory is created with mode 0755, whose group and other bits 0055 are
not zero. -/
theorem mainToken_mode_not_owner_only :
    mkdirCalls (mainToken demoTokenWorld "abc" ["get"]).2 = [("tmp/sessions", 0o755)] ∧
    0o755 &&& 0o077 = 0o055 ∧ 0o755 &&& 0o077 ≠ 0 := by
  decide

/-- C2 as amended: for every session identifier and every non-empty argument
list, `mainToken` creates the directory of the token path exactly once, with
mode 0755: every bit for the owner, read and execute but not write for group
and others. -/
theorem mainToken_mkdir_mode (w : TokenWorld) (s : String) (args : List String)
    (hargs : args ≠ []) :
    mkdirCalls (mainToken w s args).2 = [(Dir (tokenPath s), 0o755)] ∧
    ∀ d m, (d, m) ∈ mkdirCalls (mainToken w s args).2 →
      m = 0o755 ∧ m &&& 0o700 = 0o700 ∧ m &&& 0o077 = 0o055 ∧ m &&& 0o022 = 0 := by
  have hcalls : mkdirCalls (mainToken w s args).2 = [(Dir (tokenPath s), 0o755)] := by
    rcases hm : w.MkdirAll (Dir (tokenPath s)) 0o755 with _ | e
    · rw [mainToken_ok w s args hargs hm]
      rfl
    · rw [mainToken_mkdir_fails w s args hargs e hm]
      rfl
  refine ⟨hcalls, ?_⟩
  intro d m hm
  rw [hcalls] at hm
  simp only [List.mem_singleton, Prod.mk.injEq] at hm
  obtain ⟨-, rfl⟩ := hm
  decide

theorem mainToken_mkdir_mode_witness :
    mkdirCalls (mainToken demoTokenWorld "abc" ["get"]).2 =
      [(Dir (tokenPath "abc"), 0o755)] ∧
    ∀ d m, (d, m) ∈ mkdirCalls (mainToken demoTokenWorld "abc" ["get"]).2 →
      m = 0o755 ∧ m &&& 0o700 = 0o700 ∧ m &&& 0o077 = 0o055 ∧ m &&& 0o022 = 0 :=
  mainToken_mkdir_mode demoTokenWorld "abc" ["get"] (by decide)

/-- C3 as stated fails: for the session identifier `../../etc/passwd` the
path handed to the disk helper cleans to `etc/passwd` and the directory
created is `etc`; neither lies under `tmp/sessions`. -/
theorem mainToken_path_escapes_sessions :
    mainToken demoTokenWorld "../../etc/passwd" ["get"] =
      (0, [.MkdirAll "etc" 0o755,
           .LogPrintf "[DEBUG] token: [get] tmp/sessions/../../etc/passwd",
           .HelperRun "tmp/sessions/../../etc/passwd" ["get"]]) ∧
    Clean "tmp/sessions/../../etc/passwd" = "etc/passwd" ∧
    underSessions "tmp/sessions/../../etc/passwd" = false ∧
    underSessions "etc" = false := by
  decide

/-- C3 as amended: for every session identifier that never steps above the
sessions directory (read from the left, no `..` element comes while every
earlier element other than the empty one and `.` has been cancelled by a
`..`), the path handed to the disk helper and the directory created lie in
the sessions directory or under it: after lexical cleaning the path is
`tmp/sessions` followed by the elements `es` that remain of the identifier,
and the directory is `tmp/sessions` followed by the elements `ds` that remain
of the identifier up to its last `/`.  The path has `tmp/sessions` as a proper
directory prefix exactly when `es` is not empty, the directory exactly when
`ds` is not empty. -/
theorem mainToken_stays_in_sessions (w : TokenWorld) (s : String) (args : List String)
    (es : List (List Char)) (hargs : args ≠ [])
    (hs : remaining s.data = some es) :
    ∃ ds, remaining (dirPart s.data) = some ds ∧
      mkdirCalls (mainToken w s args).2 = [(sessionsJoin ds, 0o755)] ∧
      Clean (sessionsJoin ds) = sessionsJoin ds ∧
      (underSessions (sessionsJoin ds) = true ↔ ds ≠ []) ∧
      (w.MkdirAll (sessionsJoin ds) 0o755 = none →
        helperPaths (mainToken w s args).2 = ["tmp/sessions/" ++ s]) ∧
      ∀ p ∈ helperPaths (mainToken w s args).2,
        p = "tmp/sessions/" ++ s ∧ Clean p = sessionsJoin es ∧
        (underSessions p = true ↔ es ≠ []) := by
  obtain ⟨ds, hds⟩ := remaining_dirPart s.data es hs
  have hp : tokenPath s = "tmp/sessions/" ++ s := String.ext (tokenPath_data s)
  have hpd : tokenPath s = ⟨"tmp/sessions/".data ++ s.data⟩ := String.ext (tokenPath_data s)
  have hclean : Clean (tokenPath s) = sessionsJoin es := by
    rw [hpd]; exact Clean_sessions s.data es hs
  have hdir : Dir (tokenPath s) = sessionsJoin ds := by
    rw [hpd, Dir_sessions]; exact Clean_sessions _ ds hds
  have hdsreal := remaining_real _ ds hds
  have hesreal := remaining_real _ es hs
  have hidem := Clean_sessionsJoin ds hdsreal
  have hunderd := underSessions_iff (sessionsJoin ds) ds hidem
    (fun x hx h => (hdsreal x hx).2.1 (Or.inl h))
  have hunderp := underSessions_iff (tokenPath s) es hclean
    (fun x hx h => (hesreal x hx).2.1 (Or.inl h))
  refine ⟨ds, hds, ?_, hidem, hunderd, ?_, ?_⟩
  · rcases hm : w.MkdirAll (Dir (tokenPath s)) 0o755 with _ | e
    · rw [mainToken_ok w s args hargs hm, hdir]
      rfl
    · rw [mainToken_mkdir_fails w s args hargs e hm, hdir]
      rfl
  · intro hm
    rw [← hdir] at hm
    rw [mainToken_ok w s args hargs hm, hp]
    rfl
  · intro p hmem
    rcases hm : w.MkdirAll (Dir (tokenPath s)) 0o755 with _ | e
    · rw [mainToken_ok w s args hargs hm] at hmem
      have : p = tokenPath s := by simpa [helperPaths] using hmem
      subst this
      exact ⟨hp, hclean, hunderp⟩
    · rw [mainToken_mkdir_fails w s args hargs e hm] at hmem
      simp [helperPaths] at hmem

theorem mainToken_stays_in_sessions_witness :
    ∃ ds, remaining (dirPart "a/b".data) = some ds ∧
      mkdirCalls (mainToken demoTokenWorld "a/b" ["get"]).2 = [(sessionsJoin ds, 0o755)] ∧
      Clean (sessionsJoin ds) = sessionsJoin ds ∧
      (underSessions (sessionsJoin ds) = true ↔ ds ≠ []) ∧
      (demoTokenWorld.MkdirAll (sessionsJoin ds) 0o755 = none →
        helperPaths (mainToken demoTokenWorld "a/b" ["get"]).2 = ["tmp/sessions/" ++ "a/b"]) ∧
      ∀ p ∈ helperPaths (mainToken demoTokenWorld "a/b" ["get"]).2,
        p = "tmp/sessions/" ++ "a/b" ∧ Clean p = sessionsJoin [['a'], ['b']] ∧
        (underSessions p = true ↔ [['a'], ['b']] ≠ []) :=
  mainToken_stays_in_sessions demoTokenWorld "a/b" ["get"] [['a'], ['b']]
    (by decide) (by decide)

/-- C4 as stated fails: the distinct session identifiers `alice` and `bob`
make `mainToken` create the same directory, `tmp/sessions`. -/
theorem mainToken_directory_shared :
    "alice" ≠ "bob" ∧
    mkdirCalls (mainToken demoTokenWorld "alice" ["get"]).2 = [("tmp/sessions", 0o755)] ∧
    mkdirCalls (mainToken demoTokenWorld "bob" ["get"]).2 = [("tmp/sessions", 0o755)] := by
  decide

/-- C4 as amended: the token path is per-session, the directory is not.  For
every two distinct session identifiers the paths handed to the disk token
helper differ, while the directory created is the same, `tmp/sessions`, for
all identifiers that contain no `/`. -/
theorem mainToken_path_per_session (w : TokenWorld) (s1 s2 : String) (args : List String)
    (hargs : args ≠ []) (hne : s1 ≠ s2)
    (hm1 : w.MkdirAll (Dir (tokenPath s1)) 0o755 = none)
    (hm2 : w.MkdirAll (Dir (tokenPath s2)) 0o755 = none) :
    helperPaths (mainToken w s1 args).2 = ["tmp/sessions/" ++ s1] ∧
    helperPaths (mainToken w s2 args).2 = ["tmp/sessions/" ++ s2] ∧
    helperPaths (mainToken w s1 args).2 ≠ helperPaths (mainToken w s2 args).2 ∧
    ('/' ∉ s1.data → '/' ∉ s2.data →
      mkdirCalls (mainToken w s1 args).2 = [("tmp/sessions", 0o755)] ∧
      mkdirCalls (mainToken w s2 args).2 = [("tmp/sessions", 0o755)]) := by
  have hp1 : tokenPath s1 = "tmp/sessions/" ++ s1 := String.ext (tokenPath_data s1)
  have hp2 : tokenPath s2 = "tmp/sessions/" ++ s2 := String.ext (tokenPath_data s2)
  have e1 : helperPaths (mainToken w s1 args).2 = ["tmp/sessions/" ++ s1] := by
    rw [mainToken_ok w s1 args hargs hm1, hp1]
    rfl
  have e2 : helperPaths (mainToken w s2 args).2 = ["tmp/sessions/" ++ s2] := by
    rw [mainToken_ok w s2 args hargs hm2, hp2]
    rfl
  refine ⟨e1, e2, ?_, ?_⟩
  · rw [e1, e2]
    intro h
    simp only [List.cons.injEq, and_true] at h
    rw [← hp1, ← hp2] at h
    exact hne (tokenPath_injective s1 s2 h)
  · intro h1 h2
    constructor
    · rw [mainToken_ok w s1 args hargs hm1, Dir_tokenPath s1 h1]
      rfl
    · rw [mainToken_ok w s2 args hargs hm2, Dir_tokenPath s2 h2]
      rfl

theorem mainToken_path_per_session_witness :
    helperPaths (mainToken demoTokenWorld "alice" ["get"]).2 = ["tmp/sessions/" ++ "alice"] ∧
    helperPaths (mainToken demoTokenWorld "bob" ["get"]).2 = ["tmp/sessions/" ++ "bob"] ∧
    helperPaths (mainToken demoTokenWorld "alice" ["get"]).2 ≠
      helperPaths (mainToken demoTokenWorld "bob" ["get"]).2 ∧
    ('/' ∉ "alice".data → '/' ∉ "bob".data →
      mkdirCalls (mainToken demoTokenWorld "alice" ["get"]).2 = [("tmp/sessions", 0o755)] ∧
      mkdirCalls (mainToken demoTokenWorld "bob" ["get"]).2 = [("tmp/sessions", 0o755)]) :=
  mainToken_path_per_session demoTokenWorld "alice" "bob" ["get"]
    (by decide) (by decide) rfl rfl

/-- C5 as stated fails: two runs in the same world that differ only in the
`Key` field (empty, or `abc`), in which the same key `abc` is submitted and
the same status comes back, do not write the same texts: the prompt is
written only when the selected value is empty. -/
theorem Run_texts_depend_on_empty_share :
    unsealCalls (Run (demoWorld ("abc", none) ⟨true, 3, 5, 1⟩) ⟨""⟩ []).2 =
      unsealCalls (Run (demoWorld ("abc", none) ⟨true, 3, 5, 1⟩) ⟨"abc"⟩ []).2 ∧
    texts (Run (demoWorld ("abc", none) ⟨true, 3, 5, 1⟩) ⟨""⟩ []).2 =
      [.Printf "Key (will be hidden): ", .Printf "\n",
       .UiOutput "Sealed: true\nKey Shares: 5\nKey Threshold: 3\nUnseal Progress: 1"] ∧
    texts (Run (demoWorld ("abc", none) ⟨true, 3, 5, 1⟩) ⟨"abc"⟩ []).2 =
      [.UiOutput "Sealed: true\nKey Shares: 5\nKey Threshold: 3\nUnseal Progress: 1"] ∧
    texts (Run (demoWorld ("abc", none) ⟨true, 3, 5, 1⟩) ⟨""⟩ []).2 ≠
      texts (Run (demoWorld ("abc", none) ⟨true, 3, 5, 1⟩) ⟨"abc"⟩ []).2 := by
  decide

/-- C5 as amended: two runs that differ only in the share value (`Key`, first
positional argument, text returned by the password helper), whose selected
value is empty in both or in neither, and in which flag parsing (with the same
error, if it fails), client creation, the password helper and the client give
the same error and status, write the same sequence of texts (`Ui.Output`,
`Ui.Error`, prompt) and return the same code. -/
theorem Run_texts_independent_of_share (w1 w2 : World) (c1 c2 : UnsealCommand)
    (args1 args2 : List String)
    (hparse : (w1.flagsParse args1).isSome = (w2.flagsParse args2).isSome)
    (herr : w1.flagsParse args1 = none → w2.flagsParse args2 = none →
      w1.flagsError args1 = w2.flagsError args2)
    (hc : w1.clientErr = w2.clientErr)
    (hpw : w1.passwordRead.2 = w2.passwordRead.2)
    (hsel : ∀ p1 p2, w1.flagsParse args1 = some p1 → w2.flagsParse args2 = some p2 →
      (selectValue c1 p1.2 = "" ↔ selectValue c2 p2.2 = "") ∧
      w1.Unseal (TrimSpace (shareValue w1 c1 p1.2)) =
        w2.Unseal (TrimSpace (shareValue w2 c2 p2.2))) :
    (Run w1 c1 args1).1 = (Run w2 c2 args2).1 ∧
    texts (Run w1 c1 args1).2 = texts (Run w2 c2 args2).2 := by
  unfold Run
  rcases hp1 : w1.flagsParse args1 with _ | ⟨r1, pos1⟩ <;>
    rcases hp2 : w2.flagsParse args2 with _ | ⟨r2, pos2⟩ <;>
    simp only [hp1, hp2, Option.isSome_none, Option.isSome_some] at hparse
  · rw [herr hp1 hp2]
    exact ⟨rfl, rfl⟩
  · cases hparse
  · cases hparse
  obtain ⟨hempty, hu⟩ := hsel (r1, pos1) (r2, pos2) hp1 hp2
  simp only [← hc]
  rcases w1.clientErr with _ | e
  · by_cases hv1 : selectValue c1 pos1 = ""
    · have hv2 : selectValue c2 pos2 = "" := hempty.mp hv1
      simp only [shareValue, hv1, hv2, if_true] at hu ⊢
      rcases h1 : w1.passwordRead with ⟨t1, e1⟩
      rcases h2 : w2.passwordRead with ⟨t2, e2⟩
      simp only [h1, h2] at hpw hu
      subst hpw
      rcases e1 with _ | e1
      · simp only [submit, ← hu]
        generalize w1.Unseal (TrimSpace t1) = res
        rcases res with e | st <;> simp [texts]
      · simp [texts]
    · have hv2 : ¬ selectValue c2 pos2 = "" := fun h => hv1 (hempty.mpr h)
      simp only [shareValue, hv1, hv2, if_false] at hu ⊢
      simp only [submit, ← hu]
      generalize w1.Unseal (TrimSpace (selectValue c1 pos1)) = res
      rcases res with e | st <;> simp [texts]
  · simp

theorem Run_texts_independent_of_share_witness :
    (Run (demoWorld ("", none) ⟨true, 3, 5, 1⟩) ⟨"abc"⟩ ["first"]).1 =
      (Run (demoWorld ("", none) ⟨true, 3, 5, 1⟩) ⟨"abc"⟩ ["second"]).1 ∧
    texts (Run (demoWorld ("", none) ⟨true, 3, 5, 1⟩) ⟨"abc"⟩ ["first"]).2 =
      texts (Run (demoWorld ("", none) ⟨true, 3, 5, 1⟩) ⟨"abc"⟩ ["second"]).2 :=
  Run_texts_independent_of_share (demoWorld ("", none) ⟨true, 3, 5, 1⟩)
    (demoWorld ("", none) ⟨true, 3, 5, 1⟩) ⟨"abc"⟩ ⟨"abc"⟩ ["first"] ["second"]
    (by decide) (by decide) rfl rfl
    (by
      intro p1 p2 h1 h2
      have e1 : p1 = (false, ["first"]) :=
        Option.some.inj (h1.symm.trans (by decide))
      have e2 : p2 = (false, ["second"]) :=
        Option.some.inj (h2.symm.trans (by decide))
      subst e1 e2
      exact ⟨by decide, rfl⟩)

/-- C6 as stated fails: with an empty first positional argument, `Key` set to
`k` and the password helper answering `p`, the run reaches the submission and
submits `p`, which is neither the trimmed first positional argument nor the
trimmed `Key`. -/
theorem Run_empty_positional_submits_password :
    (demoWorld ("p", none) ⟨true, 3, 5, 1⟩).flagsParse [""] = some (false, [""]) ∧
    unsealCalls (Run (demoWorld ("p", none) ⟨true, 3, 5, 1⟩) ⟨"k"⟩ [""]).2 = ["p"] ∧
    claimedValue ⟨"k"⟩ [""] "p" = "" ∧
    unsealCalls (Run (demoWorld ("p", none) ⟨true, 3, 5, 1⟩) ⟨"k"⟩ [""]).2 ≠
      [TrimSpace (claimedValue ⟨"k"⟩ [""] "p")] ∧
    unsealCalls (Run (demoWorld ("p", none) ⟨true, 3, 5, 1⟩) ⟨"k"⟩ [""]).2 ≠
      [TrimSpace "k"] := by
  decide

/-- C6 as amended: for every run of `Run` that reaches the submission and
whose first positional argument, when one is given, is not empty, exactly one
string is passed to `client.Sys().Unseal`, the whitespace-trimmed form of the
selected share value `v` (first positional argument if present, else `Key` if
not empty, else the value read from the password helper): it is
`strings.TrimSpace(v)`, has no leading or trailing whitespace character, is
`v` without a leading and a trailing run of whitespace, and is `v` itself when
`v` has no surrounding whitespace. -/
theorem Run_submits_trimmed_share (w : World) (c : UnsealCommand) (args : List String)
    (p : Bool × List String) (v : String)
    (hp : w.flagsParse args = some p) (hc : w.clientErr = none)
    (hk : acquiredKey w c p.2 = some v)
    (hpos : ∀ a, p.2.head? = some a → a ≠ "") :
    v = claimedValue c p.2 w.passwordRead.1 ∧
    unsealCalls (Run w c args).2 = [TrimSpace v] ∧
    (∀ x, (TrimSpace v).data.head? = some x → isSpace x = false) ∧
    (∀ x, (TrimSpace v).data.getLast? = some x → isSpace x = false) ∧
    (∃ pre suf, v.data = pre ++ (TrimSpace v).data ++ suf ∧
      (∀ x ∈ pre, isSpace x = true) ∧ (∀ x ∈ suf, isSpace x = true)) ∧
    ((∀ x, v.data.head? = some x → isSpace x = false) →
      (∀ x, v.data.getLast? = some x → isSpace x = false) → TrimSpace v = v) := by
  obtain ⟨r, pos⟩ := p
  refine ⟨?_, ?_, TrimSpace_spec v⟩
  · rcases pos with _ | ⟨a, rest⟩
    · by_cases hK : c.Key = ""
      · rcases hpw : w.passwordRead with ⟨txt, _ | e⟩ <;>
          simp [acquiredKey, selectValue, hK, hpw] at hk
        simp [claimedValue, hK, hk]
      · simp [acquiredKey, selectValue, hK] at hk
        subst hk
        simp [claimedValue, hK]
    · have ha : a ≠ "" := hpos a rfl
      simp [acquiredKey, selectValue, ha] at hk
      simp [claimedValue, hk]
  · unfold Run
    simp only [hp, hc]
    by_cases hv : selectValue c pos = ""
    · rcases hpw : w.passwordRead with ⟨txt, _ | e⟩
      · simp [acquiredKey, hv, hpw] at hk
        subst hk
        simp only [hv, if_true, submit]
        generalize w.Unseal (TrimSpace txt) = res
        rcases res with e | st <;> simp [unsealCalls]
      · simp [acquiredKey, hv, hpw] at hk
    · simp [acquiredKey, hv] at hk
      subst hk
      simp only [hv, if_false, submit]
      generalize w.Unseal (TrimSpace (selectValue c pos)) = res
      rcases res with e | st <;> simp [unsealCalls]

theorem Run_submits_trimmed_share_witness :
    " s3cret\n" = claimedValue ⟨""⟩ [" s3cret\n"]
      (demoWorld ("", none) ⟨true, 3, 5, 1⟩).passwordRead.1 ∧
    unsealCalls (Run (demoWorld ("", none) ⟨true, 3, 5, 1⟩) ⟨""⟩ [" s3cret\n"]).2 =
      [TrimSpace " s3cret\n"] ∧
    (∀ x, (TrimSpace " s3cret\n").data.head? = some x → isSpace x = false) ∧
    (∀ x, (TrimSpace " s3cret\n").data.getLast? = some x → isSpace x = false) ∧
    (∃ pre suf, " s3cret\n".data = pre ++ (TrimSpace " s3cret\n").data ++ suf ∧
      (∀ x ∈ pre, isSpace x = true) ∧ (∀ x ∈ suf, isSpace x = true)) ∧
    ((∀ x, " s3cret\n".data.head? = some x → isSpace x = false) →
      (∀ x, " s3cret\n".data.getLast? = some x → isSpace x = false) →
      TrimSpace " s3cret\n" = " s3cret\n") :=
  Run_submits_trimmed_share (demoWorld ("", none) ⟨true, 3, 5, 1⟩) ⟨""⟩ [" s3cret\n"]
    (false, [" s3cret\n"]) " s3cret\n" (by decide) rfl (by decide) (by decide)

/-- C7: when flag parsing and client creation succeed, no positional argument
is given, `Key` is empty and the password helper fails with error `e`, `Run`
writes the prompt, gives `Ui.Error` the fixed warning about piped or
non-terminal input followed by `Raw error: ` and `e`, returns 1, and neither
calls `client.Sys().Unseal` nor prints a status. -/
theorem Run_password_failure (w : World) (c : UnsealCommand) (args : List String)
    (r : Bool) (txt e : String)
    (hp : w.flagsParse args = some (r, [])) (hc : w.clientErr = none)
    (hK : c.Key = "") (hpw : w.passwordRead = (txt, some e)) :
    Run w c args =
      (1, [.Printf "Key (will be hidden): ", .PasswordRead, .Printf "\n",
           .UiError (passwordWarning ++ "Raw error: " ++ e)]) ∧
    unsealCalls (Run w c args).2 = [] ∧
    uiOutputs (Run w c args).2 = [] := by
  have h : Run w c args =
      (1, [.Printf "Key (will be hidden): ", .PasswordRead, .Printf "\n",
           .UiError (passwordWarning ++ "Raw error: " ++ e)]) := by
    unfold Run
    simp only [hp, hc, selectValue, hK, hpw, sprintf_passwordError]
    simp
    decide
  rw [h]
  simp [unsealCalls, uiOutputs]

theorem Run_password_failure_witness :
    Run (demoWorld ("", some "inappropriate ioctl for device") ⟨true, 3, 5, 0⟩) ⟨""⟩ [] =
      (1, [.Printf "Key (will be hidden): ", .PasswordRead, .Printf "\n",
           .UiError (passwordWarning ++ "Raw error: " ++ "inappropriate ioctl for device")]) ∧
    unsealCalls
      (Run (demoWorld ("", some "inappropriate ioctl for device") ⟨true, 3, 5, 0⟩) ⟨""⟩ []).2
        = [] ∧
    uiOutputs
      (Run (demoWorld ("", some "inappropriate ioctl for device") ⟨true, 3, 5, 0⟩) ⟨""⟩ []).2
        = [] :=
  Run_password_failure (demoWorld ("", some "inappropriate ioctl for device") ⟨true, 3, 5, 0⟩)
    ⟨""⟩ [] false "" "inappropriate ioctl for device" (by decide) rfl rfl rfl

/-- C8 (the code departs from the claim): with `Key` set to `seeded` and an
empty first positional argument, `Run` asks for the key with the password
helper once and submits what the helper returned, not `Key`. -/
theorem Run_key_set_still_prompts :
    (demoWorld ("typed", none) ⟨true, 3, 5, 1⟩).flagsParse [""] = some (false, [""]) ∧
    passwordReads (Run (demoWorld ("typed", none) ⟨true, 3, 5, 1⟩) ⟨"seeded"⟩ [""]).2 = 1 ∧
    unsealCalls (Run (demoWorld ("typed", none) ⟨true, 3, 5, 1⟩) ⟨"seeded"⟩ [""]).2 =
      ["typed"] := by
  decide

/-- C9: for every status that `client.Sys().Unseal` returns without error in
a run that reaches the submission, `Run` gives `Ui.Output` exactly one
message, the four lines `Sealed:`, `Key Shares:`, `Key Threshold:`,
`Unseal Progress:` with the values of the status, gives `Ui.Error` nothing,
and returns 0. -/
theorem Run_status_report (w : World) (c : UnsealCommand) (args : List String)
    (p : Bool × List String) (k : String) (st : SealStatus)
    (hp : w.flagsParse args = some p) (hc : w.clientErr = none)
    (hk : acquiredKey w c p.2 = some k) (hu : w.Unseal (TrimSpace k) = .ok st) :
    (Run w c args).1 = 0 ∧
    uiOutputs (Run w c args).2 =
      ["Sealed: " ++ (if st.Sealed then "true" else "false") ++ "\n" ++
       "Key Shares: " ++ toString st.N ++ "\n" ++
       "Key Threshold: " ++ toString st.T ++ "\n" ++
       "Unseal Progress: " ++ toString st.Progress] ∧
    uiErrors (Run w c args).2 = [] := by
  obtain ⟨r, pos⟩ := p
  unfold Run
  simp only [hp, hc]
  by_cases hv : selectValue c pos = ""
  · rcases hpw : w.passwordRead with ⟨txt, _ | e⟩
    · simp [acquiredKey, hv, hpw] at hk
      subst hk
      simp [hv, hpw, hu, submit, uiOutputs, uiErrors, sprintf_status, statusLines]
    · simp [acquiredKey, hv, hpw] at hk
  · simp [acquiredKey, hv] at hk
    subst hk
    simp [hv, hu, submit, uiOutputs, uiErrors, sprintf_status, statusLines]

theorem Run_status_report_witness :
    (Run (demoWorld ("", none) ⟨true, 3, 5, 2⟩) ⟨""⟩ ["abc"]).1 = 0 ∧
    uiOutputs (Run (demoWorld ("", none) ⟨true, 3, 5, 2⟩) ⟨""⟩ ["abc"]).2 =
      ["Sealed: " ++ (if (⟨true, 3, 5, 2⟩ : SealStatus).Sealed then "true" else "false") ++ "\n" ++
       "Key Shares: " ++ toString (⟨true, 3, 5, 2⟩ : SealStatus).N ++ "\n" ++
       "Key Threshold: " ++ toString (⟨true, 3, 5, 2⟩ : SealStatus).T ++ "\n" ++
       "Unseal Progress: " ++ toString (⟨true, 3, 5, 2⟩ : SealStatus).Progress] ∧
    uiErrors (Run (demoWorld ("", none) ⟨true, 3, 5, 2⟩) ⟨""⟩ ["abc"]).2 = [] :=
  Run_status_report (demoWorld ("", none) ⟨true, 3, 5, 2⟩) ⟨""⟩ ["abc"] (false, ["abc"]) "abc"
    ⟨true, 3, 5, 2⟩ (by decide) rfl (by decide) rfl

/-- C10: the return code of `Run` is 0, 1 or 2; it is 2 exactly when flag
parsing succeeds and client creation fails, and then the key is not prompted
for and `Unseal` is not called; it is 0 exactly when flag parsing, client
creation, key acquisition and the `Unseal` call all succeed; it is 1 in every
other case; and `client.Sys().Unseal` is called at most once. -/
theorem Run_return_code (w : World) (c : UnsealCommand) (args : List String) :
    ((Run w c args).1 = 0 ∨ (Run w c args).1 = 1 ∨ (Run w c args).1 = 2) ∧
    ((Run w c args).1 = 2 ↔ ∃ p, w.flagsParse args = some p ∧ w.clientErr ≠ none) ∧
    ((Run w c args).1 = 2 →
      passwordReads (Run w c args).2 = 0 ∧ unsealCalls (Run w c args).2 = [] ∧
      ∀ t, Event.Printf t ∉ (Run w c args).2) ∧
    ((Run w c args).1 = 0 ↔
      ∃ p, w.flagsParse args = some p ∧ w.clientErr = none ∧
        ∃ k st, acquiredKey w c p.2 = some k ∧ w.Unseal (TrimSpace k) = .ok st) ∧
    ((Run w c args).1 = 1 ↔
      ¬ (∃ p, w.flagsParse args = some p ∧ w.clientErr ≠ none) ∧
      ¬ (∃ p, w.flagsParse args = some p ∧ w.clientErr = none ∧
        ∃ k st, acquiredKey w c p.2 = some k ∧ w.Unseal (TrimSpace k) = .ok st)) ∧
    (unsealCalls (Run w c args).2).length ≤ 1 := by
  unfold Run
  rcases hp : w.flagsParse args with _ | ⟨r, pos⟩
  · rcases w.flagsError args with _ | err
    · simp [flagOutput, unsealCalls]
    · cases err <;> simp [flagOutput, unsealCalls]
  · rcases hc : w.clientErr with _ | e
    · by_cases hv : selectValue c pos = ""
      · rcases hpw : w.passwordRead with ⟨txt, _ | e⟩
        · rcases hu : w.Unseal (TrimSpace txt) with e | st <;>
            simp [hv, hpw, hu, submit, acquiredKey, unsealCalls, passwordReads]
        · simp [hv, hpw, acquiredKey, unsealCalls, passwordReads]
      · rcases hu : w.Unseal (TrimSpace (selectValue c pos)) with e | st <;>
          simp [hv, hu, submit, acquiredKey, unsealCalls, passwordReads]
    · simp [unsealCalls, passwordReads]

end Vault
